import Mathlib

/-!
Verification development for the `bembo` pretty-printing library
(`src/bembo/doc.h`, `src/bembo/doc.cc`, `src/bembo/ranges.h`).

A C++ `Doc` is a tagged word carrying a per-reference `flattened` bit
together with a node (`Tag::Nil`, `Tag::Line`, `Tag::ShortText`,
`Tag::Text`, `Tag::Concat`, `Tag::Choice`, `Tag::Nest`).  We embed it as
an inductive tree whose every constructor carries that per-reference bit.
Strings are modelled as sequences of code units; `String.length` plays
the role of `std::string::size()` (the spec defines width as the count of
code units, so this is exact for the library's accounting).
-/

inductive Doc : Type where
  | Nil (flattened : Bool)
  | Line (flattened : Bool)
  | ShortText (flattened : Bool) (s : String)
  | Text (flattened : Bool) (s : String)
  | Concat (flattened : Bool) (children : List Doc)
  | Choice (flattened : Bool) (left right : Doc)
  | Nest (flattened : Bool) (indent : Int) (doc : Doc)
deriving Repr

/-- `Doc::is_flattened`: read the per-reference flattened bit. -/
def Doc.isFlattened : Doc → Bool
  | .Nil f => f
  | .Line f => f
  | .ShortText f _ => f
  | .Text f _ => f
  | .Concat f _ => f
  | .Choice f _ _ => f
  | .Nest f _ _ => f

/-- `Doc::is_nil`: true iff the tag is `Nil` (doc.h line 205). -/
def Doc.is_nil : Doc → Bool
  | .Nil _ => true
  | _ => false

/-- `Doc::flatten(Doc)`: copy the value and set the flattened bit
(`value |= FLATTENED_MASK`, doc.cc lines 377–386). -/
def Doc.flatten : Doc → Doc
  | .Nil _ => .Nil true
  | .Line _ => .Line true
  | .ShortText _ s => .ShortText true s
  | .Text _ s => .Text true s
  | .Concat _ ds => .Concat true ds
  | .Choice _ l r => .Choice true l r
  | .Nest _ k d => .Nest true k d

/-- `Doc::nil()` (doc.cc line 261): a fresh value is all zeros, so the
flattened bit is clear. -/
def Doc.nil : Doc := .Nil false

/-- `Doc::line()` (doc.cc line 265). -/
def Doc.line : Doc := .Line false

/-- `Doc::choice` (doc.cc line 199): heap `Choice` node, bit clear. -/
def Doc.choice (l r : Doc) : Doc := .Choice false l r

/-- `Doc::short_text` (doc.cc lines 204–214); callers guarantee
`s.length ≤ 8`. -/
def Doc.short_text (s : String) : Doc := .ShortText false s

/-- `Doc::c(char)` (doc.cc line 277). -/
def Doc.c (ch : Char) : Doc := Doc.short_text (String.mk [ch])

/-- `Doc::sv(std::string_view)` (doc.cc lines 308–318): empty → `Nil`,
size ≤ 8 → inline `ShortText`, otherwise a boxed `Text`. -/
def Doc.sv (s : String) : Doc :=
  if s.isEmpty then .Nil false
  else if s.length ≤ 8 then .ShortText false s
  else .Text false s

/-- `Doc::s(const char *)` (doc.cc lines 295–306); the null pointer is
modelled as `none`.  Note a non-null empty string becomes a size-0
`ShortText`, not `Nil`, exactly as in the source. -/
def Doc.s : Option String → Doc
  | none => Doc.nil
  | some str => if str.length ≤ 8 then .ShortText false str else .Text false str

/-- `Doc::softline()` (doc.cc line 269). -/
def Doc.softline : Doc := Doc.choice (Doc.c ' ') Doc.line

/-- `Doc::softbreak()` (doc.cc line 273). -/
def Doc.softbreak : Doc := Doc.choice Doc.nil Doc.line

/-- `Doc::group` (doc.cc lines 372–375): `choice(flatten(doc), doc)`. -/
def Doc.group (d : Doc) : Doc := Doc.choice d.flatten d

/-- `Doc::nest` (doc.cc line 388). -/
def Doc.nest (indent : Int) (d : Doc) : Doc := .Nest false indent d

/-- Variadic `Doc::concat` (doc.h lines 232–238): build one `Concat`
node and push every argument, in order, unconditionally. -/
def Doc.concat (ds : List Doc) : Doc := .Concat false ds

/-- `Doc::operator+` (doc.cc lines 320–322): `Doc::concat(*this, other)`. -/
def Doc.add (a b : Doc) : Doc := Doc.concat [a, b]

/-- `Doc::append` (doc.cc lines 324–347).  A nil argument is dropped; a
`Nil` receiver is replaced; a uniquely owned `Concat` receiver extends
its child vector in place (uniqueness always holds for the freshly built
results this model applies it to); otherwise fall through to
`Doc::concat(*this, other)`. -/
def Doc.append (self other : Doc) : Doc :=
  if other.is_nil then self
  else
    match self with
    | .Nil _ => other
    | .Concat f ds => .Concat f (ds ++ [other])
    | _ => Doc.concat [self, other]

/-- `sep` from doc.h lines 264–284, loop body: all but the last chunk
contribute `res += group(chunk + d)`; the last contributes `res += chunk`. -/
def sepLoop (d res : Doc) : List Doc → Doc
  | [] => res
  | [chunk] => res.append chunk
  | chunk :: rest => sepLoop d (res.append (Doc.group (chunk.add d))) rest

/-- `sep(Doc, It, Sentinel)` (doc.h lines 264–284): empty range → `Nil`,
otherwise run the loop starting from a default-constructed (`Nil`) `res`. -/
def sep (d : Doc) : List Doc → Doc
  | [] => Doc.nil
  | items => sepLoop d Doc.nil items

/-- Loop of the `std::ranges` `sep` (ranges.h lines 16–38): it differs
from the doc.h version in wrapping the last item in `group`. -/
def sepRangesLoop (d res : Doc) : List Doc → Doc
  | [] => res
  | [item] => res.append (Doc.group item)
  | item :: rest => sepRangesLoop d (res.append (Doc.group (item.add d))) rest

/-- `sep(Doc, Range)` from ranges.h lines 16–38. -/
def sepRanges (d : Doc) : List Doc → Doc
  | [] => Doc.nil
  | items => sepRangesLoop d Doc.nil items

/-! ## Sizes (termination measures for the stack machines) -/

mutual
def Doc.size : Doc → Nat
  | .Nil _ => 1
  | .Line _ => 1
  | .ShortText _ _ => 1
  | .Text _ _ => 1
  | .Concat _ ds => 1 + Doc.sizeList ds
  | .Choice _ l r => 1 + l.size + r.size
  | .Nest _ _ d => 1 + d.size

def Doc.sizeList : List Doc → Nat
  | [] => 0
  | d :: ds => d.size + Doc.sizeList ds
end

theorem Doc.size_pos (d : Doc) : 0 < d.size := by
  cases d <;> simp [Doc.size]

/-- Work item of the renderer (`Node` in doc.cc lines 394–400). -/
structure Node : Type where
  doc : Doc
  indent : Int
  flattening : Bool
deriving Repr

def workSize : List Node → Nat
  | [] => 0
  | n :: rest => n.doc.size + workSize rest

def fitsSize : List (Doc × Bool) → Nat
  | [] => 0
  | p :: rest => p.1.size + fitsSize rest

theorem workSize_append (a b : List Node) :
    workSize (a ++ b) = workSize a + workSize b := by
  induction a with
  | nil => simp [workSize]
  | cons n rest ih => simp [workSize, ih]; omega

theorem fitsSize_append (a b : List (Doc × Bool)) :
    fitsSize (a ++ b) = fitsSize a + fitsSize b := by
  induction a with
  | nil => simp [fitsSize]
  | cons n rest ih => simp [fitsSize, ih]; omega

theorem workSize_map (ds : List Doc) (i : Int) (fl : Bool) :
    workSize (ds.map (fun d => Node.mk d i (fl || d.isFlattened))) = Doc.sizeList ds := by
  induction ds with
  | nil => simp [workSize, Doc.sizeList]
  | cons d rest ih => simp [workSize, Doc.sizeList, ih]

theorem fitsSize_map (ds : List Doc) (fl : Bool) :
    fitsSize (ds.map (fun d => (d, fl || d.isFlattened))) = Doc.sizeList ds := by
  induction ds with
  | nil => simp [fitsSize, Doc.sizeList]
  | cons d rest ih => simp [fitsSize, Doc.sizeList, ih]

theorem workSize_map' (ds : List Doc) (g : Doc → Node) (hg : ∀ d, (g d).doc = d) :
    workSize (ds.map g) = Doc.sizeList ds := by
  induction ds with
  | nil => simp [workSize, Doc.sizeList]
  | cons d rest ih => simp [workSize, Doc.sizeList, ih, hg]

theorem fitsSize_map' (ds : List Doc) (g : Doc → Doc × Bool) (hg : ∀ d, (g d).1 = d) :
    fitsSize (ds.map g) = Doc.sizeList ds := by
  induction ds with
  | nil => simp [fitsSize, Doc.sizeList]
  | cons d rest ih => simp [fitsSize, Doc.sizeList, ih, hg]

/-! ## The fit predicate (`Fits`, doc.cc lines 404–509)

`Fits::check` walks a private work stack and, when it runs dry, pulls
the renderer's remaining work through an iterator (`advance`).  Merging
the two sources into one list is behaviour-preserving because the
iterator is only consulted when the private stack is empty.  `Fits`
stores an `indent` in each `Node` but never reads it (its own pushes use
0, and the check, as its comment says, "completely ignores indentation"),
so work items are modelled as `Doc × Bool` pairs of document and
flattening flag.  Pushes compute `parent.flattening || doc->is_flattened()`.
-/

def fits (W : Int) : Int → List (Doc × Bool) → Bool
  | _, [] => true
  | col, (.Nil _, _) :: rest => fits W col rest
  | col, (.Line _, fl) :: rest =>
    if fl then fits W (col + 1) rest else true
  | col, (.ShortText _ s, _) :: rest =>
    if col + (s.length : Int) > W then false
    else fits W (col + (s.length : Int)) rest
  | col, (.Text _ s, _) :: rest =>
    if col + (s.length : Int) > W then false
    else fits W (col + (s.length : Int)) rest
  | col, (.Concat _ ds, fl) :: rest =>
    fits W col (ds.map (fun d => (d, fl || d.isFlattened)) ++ rest)
  | col, (.Choice _ l r, fl) :: rest =>
    if fits W col ((l, fl || l.isFlattened) :: rest)
    then fits W col ((l, fl || l.isFlattened) :: rest)
    else fits W col ((r, fl || r.isFlattened) :: rest)
  | col, (.Nest _ _ d, fl) :: rest =>
    fits W col ((d, fl || d.isFlattened) :: rest)
termination_by _ w => fitsSize w
decreasing_by
  all_goals simp_wf
  all_goals simp [fitsSize, fitsSize_append, fitsSize_map, Doc.size]
  all_goals omega

/-- One output action issued to the `Writer` interface
(doc.h lines 15–24). -/
inductive OutEvent : Type where
  | write (s : String)
  | newline (indent : Int)
deriving Repr, DecidableEq

/-! ## The renderer (`DocRenderer::render`, doc.cc lines 525–598) -/

/-- Projection of a renderer work item to the parts the fit predicate
consumes (`Fits` copies the renderer's `Node`s but reads only the
document and the flattening flag). -/
def projNode (n : Node) : Doc × Bool := (n.doc, n.flattening)

def renderGo (W : Int) : Int → List Node → List OutEvent
  | _, [] => []
  | col, ⟨.Nil _, _, _⟩ :: rest => renderGo W col rest
  | col, ⟨.Line _, i, fl⟩ :: rest =>
    if fl then .write " " :: renderGo W (col + 1) rest
    else .newline i :: renderGo W 0 rest
  | col, ⟨.ShortText _ s, _, _⟩ :: rest =>
    .write s :: renderGo W (col + (s.length : Int)) rest
  | col, ⟨.Text _ s, _, _⟩ :: rest =>
    .write s :: renderGo W (col + (s.length : Int)) rest
  | col, ⟨.Concat _ ds, i, fl⟩ :: rest =>
    renderGo W col (ds.map (fun d => ⟨d, i, fl || d.isFlattened⟩) ++ rest)
  | col, ⟨.Choice _ l r, i, fl⟩ :: rest =>
    if fl then renderGo W col (⟨l, i, true⟩ :: rest)
    else
      if fits W col ((l, fl || l.isFlattened) :: rest.map projNode)
      then renderGo W col (⟨l, i, fl || l.isFlattened⟩ :: rest)
      else renderGo W col (⟨r, i, fl || r.isFlattened⟩ :: rest)
  | col, ⟨.Nest _ k d, i, fl⟩ :: rest =>
    renderGo W col (⟨d, i + k, fl || d.isFlattened⟩ :: rest)
termination_by _ w => workSize w
decreasing_by
  all_goals simp_wf
  all_goals simp [workSize, workSize_append, workSize_map, Doc.size]
  all_goals omega

/-- `Doc::render` (doc.cc lines 625–628): a fresh `DocRenderer` starts
at column 0 with the single work item `(doc, 0, doc->is_flattened())`. -/
def Doc.renderEvents (d : Doc) (cols : Int) : List OutEvent :=
  renderGo cols 0 [⟨d, 0, d.isFlattened⟩]

/-! ## Writers (doc.cc lines 600–623) -/

def spaces (n : Nat) : String := String.mk (List.replicate n ' ')

/-- The implicit `int → size_t` conversion performed when
`StringWriter::line` passes its `int` indent to
`std::string::append(size_type, char)`. -/
def toSizeT (i : Int) : Nat := (i % (2 ^ 64 : Int)).toNat

/-- `StringWriter::line` (doc.cc lines 616–619): push `'\n'`, then
`buffer.append(indent, ' ')` — the count is the indent converted to
`size_t`, with no clamping of negative values. -/
def stringWriterNewline (indent : Int) : String := "\n" ++ spaces (toSizeT indent)

/-- `StreamWriter::line` (doc.cc lines 602–608): emit `'\n'`, then a
loop `for (i = 0; i < indent; i++)` putting one space, i.e.
`max 0 indent` spaces. -/
def streamWriterNewline (indent : Int) : String := "\n" ++ spaces indent.toNat

/-- Folding a `StringWriter` over the event trace of a render. -/
def stringWriterRun : List OutEvent → String
  | [] => ""
  | .write s :: es => s ++ stringWriterRun es
  | .newline i :: es => stringWriterNewline i ++ stringWriterRun es

/-- `Doc::pretty` (doc.cc lines 630–634): render into a fresh
`StringWriter` and return its buffer. -/
def Doc.pretty (d : Doc) (cols : Int) : String :=
  stringWriterRun (d.renderEvents cols)

/-! ## Flattened rendering

Under a flattening flag that is everywhere `true`, the renderer never
emits a newline: every `Line` writes a single space, and every `Choice`
takes its left branch directly.  `Doc.flatStr` is the resulting text. -/

mutual
def Doc.flatStr : Doc → String
  | .Nil _ => ""
  | .Line _ => " "
  | .ShortText _ s => s
  | .Text _ s => s
  | .Concat _ ds => Doc.flatStrList ds
  | .Choice _ l _ => l.flatStr
  | .Nest _ _ d => d.flatStr

def Doc.flatStrList : List Doc → String
  | [] => ""
  | d :: ds => d.flatStr ++ Doc.flatStrList ds
end

def flatWork : List Node → String
  | [] => ""
  | n :: rest => n.doc.flatStr ++ flatWork rest

def flatWorkP : List (Doc × Bool) → String
  | [] => ""
  | p :: rest => p.1.flatStr ++ flatWorkP rest

theorem flatWork_append (a b : List Node) :
    flatWork (a ++ b) = flatWork a ++ flatWork b := by
  induction a with
  | nil => simp [flatWork, String.empty_append]
  | cons n rest ih => simp [flatWork, ih, String.append_assoc]

theorem flatWork_map (ds : List Doc) (i : Int) (fl : Bool) :
    flatWork (ds.map (fun d => Node.mk d i (fl || d.isFlattened))) = Doc.flatStrList ds := by
  induction ds with
  | nil => simp [flatWork, Doc.flatStrList]
  | cons d rest ih => simp [flatWork, Doc.flatStrList, ih]

theorem flatWorkP_append (a b : List (Doc × Bool)) :
    flatWorkP (a ++ b) = flatWorkP a ++ flatWorkP b := by
  induction a with
  | nil => simp [flatWorkP, String.empty_append]
  | cons n rest ih => simp [flatWorkP, ih, String.append_assoc]

theorem flatWorkP_map (ds : List Doc) (fl : Bool) :
    flatWorkP (ds.map (fun d => (d, fl || d.isFlattened))) = Doc.flatStrList ds := by
  induction ds with
  | nil => simp [flatWorkP, Doc.flatStrList]
  | cons d rest ih => simp [flatWorkP, Doc.flatStrList, ih]

theorem Doc.flatStr_flatten (d : Doc) : d.flatten.flatStr = d.flatStr := by
  cases d <;> simp [Doc.flatten, Doc.flatStr]

theorem Doc.isFlattened_flatten (d : Doc) : d.flatten.isFlattened = true := by
  cases d <;> rfl

/-- Rendering a work list whose flattening flags are all `true` produces
exactly the concatenation of the items' flat texts, at any width and
from any column. -/
theorem renderGo_flat (W : Int) :
    ∀ (N : Nat) (col : Int) (work : List Node), workSize work ≤ N →
      (∀ n ∈ work, n.flattening = true) →
      stringWriterRun (renderGo W col work) = flatWork work := by
  intro N
  induction N with
  | zero =>
    intro col work hsize hflat
    match work with
    | [] => simp [renderGo, flatWork, stringWriterRun]
    | n :: rest =>
      exfalso
      have := Doc.size_pos n.doc
      simp [workSize] at hsize
      omega
  | succ N ih =>
    intro col work hsize hflat
    match work with
    | [] => simp [renderGo, flatWork, stringWriterRun]
    | ⟨d, i, fl⟩ :: rest =>
      have hfl : fl = true := hflat ⟨d, i, fl⟩ (List.mem_cons_self _ _)
      subst hfl
      have hrest : ∀ n ∈ rest, n.flattening = true :=
        fun n hn => hflat n (List.mem_cons_of_mem _ hn)
      cases d with
      | Nil f =>
        simp only [renderGo, flatWork, Doc.flatStr]
        rw [ih col rest (by simp [workSize, Doc.size] at hsize ⊢; omega) hrest,
          String.empty_append]
      | Line f =>
        simp only [renderGo, if_true, flatWork, Doc.flatStr, stringWriterRun]
        rw [ih (col + 1) rest (by simp [workSize, Doc.size] at hsize ⊢; omega) hrest]
      | ShortText f s =>
        simp only [renderGo, flatWork, Doc.flatStr, stringWriterRun]
        rw [ih _ rest (by simp [workSize, Doc.size] at hsize ⊢; omega) hrest]
      | Text f s =>
        simp only [renderGo, flatWork, Doc.flatStr, stringWriterRun]
        rw [ih _ rest (by simp [workSize, Doc.size] at hsize ⊢; omega) hrest]
      | Concat f ds =>
        simp only [renderGo]
        rw [ih col (ds.map (fun d => Node.mk d i (true || d.isFlattened)) ++ rest)
            (by
              rw [workSize_append, workSize_map' _ _ (fun _ => rfl)]
              simp [workSize, Doc.size] at hsize
              omega)
            (by
              intro n hn
              rcases List.mem_append.mp hn with h | h
              · rcases List.mem_map.mp h with ⟨d', _, rfl⟩; rfl
              · exact hrest n h)]
        rw [flatWork_append, flatWork_map]
        simp [flatWork, Doc.flatStr]
      | Choice f l r =>
        simp only [renderGo, if_true]
        rw [ih col (⟨l, i, true⟩ :: rest)
            (by
              have := Doc.size_pos r
              simp [workSize, Doc.size] at hsize ⊢; omega)
            (by
              intro n hn
              rcases List.mem_cons.mp hn with rfl | h
              · rfl
              · exact hrest n h)]
        simp [flatWork, Doc.flatStr]
      | Nest f k d =>
        simp only [renderGo]
        rw [ih col (⟨d, i + k, true || d.isFlattened⟩ :: rest)
            (by simp [workSize, Doc.size] at hsize ⊢; omega)
            (by
              intro n hn
              rcases List.mem_cons.mp hn with rfl | h
              · rfl
              · exact hrest n h)]
        simp [flatWork, Doc.flatStr]

/-- On an all-flattened work list the renderer emits no `line` call to
the writer: every `Line` work item is written as a single space. -/
theorem renderGo_flat_noNewline (W : Int) :
    ∀ (N : Nat) (col : Int) (work : List Node), workSize work ≤ N →
      (∀ n ∈ work, n.flattening = true) →
      ∀ j : Int, OutEvent.newline j ∉ renderGo W col work := by
  intro N
  induction N with
  | zero =>
    intro col work hsize hflat j
    match work with
    | [] => simp [renderGo]
    | n :: rest =>
      exfalso
      have := Doc.size_pos n.doc
      simp [workSize] at hsize
      omega
  | succ N ih =>
    intro col work hsize hflat j
    match work with
    | [] => simp [renderGo]
    | ⟨d, i, fl⟩ :: rest =>
      have hfl : fl = true := hflat ⟨d, i, fl⟩ (List.mem_cons_self _ _)
      subst hfl
      have hrest : ∀ n ∈ rest, n.flattening = true :=
        fun n hn => hflat n (List.mem_cons_of_mem _ hn)
      cases d with
      | Nil f =>
        simp only [renderGo]
        exact ih col rest (by simp [workSize, Doc.size] at hsize ⊢; omega) hrest j
      | Line f =>
        simp only [renderGo, if_true, List.mem_cons]
        intro h
        rcases h with h | h
        · exact OutEvent.noConfusion h
        · exact ih (col + 1) rest (by simp [workSize, Doc.size] at hsize ⊢; omega) hrest j h
      | ShortText f s =>
        simp only [renderGo, List.mem_cons]
        intro h
        rcases h with h | h
        · exact OutEvent.noConfusion h
        · exact ih _ rest (by simp [workSize, Doc.size] at hsize ⊢; omega) hrest j h
      | Text f s =>
        simp only [renderGo, List.mem_cons]
        intro h
        rcases h with h | h
        · exact OutEvent.noConfusion h
        · exact ih _ rest (by simp [workSize, Doc.size] at hsize ⊢; omega) hrest j h
      | Concat f ds =>
        simp only [renderGo]
        exact ih col (ds.map (fun d => Node.mk d i (true || d.isFlattened)) ++ rest)
          (by
            rw [workSize_append, workSize_map' _ _ (fun _ => rfl)]
            simp [workSize, Doc.size] at hsize
            omega)
          (by
            intro n hn
            rcases List.mem_append.mp hn with h | h
            · rcases List.mem_map.mp h with ⟨d', _, rfl⟩; rfl
            · exact hrest n h) j
      | Choice f l r =>
        simp only [renderGo, if_true]
        exact ih col (⟨l, i, true⟩ :: rest)
          (by
            have := Doc.size_pos r
            simp [workSize, Doc.size] at hsize ⊢; omega)
          (by
            intro n hn
            rcases List.mem_cons.mp hn with rfl | h
            · rfl
            · exact hrest n h) j
      | Nest f k d =>
        simp only [renderGo]
        exact ih col (⟨d, i + k, true || d.isFlattened⟩ :: rest)
          (by simp [workSize, Doc.size] at hsize ⊢; omega)
          (by
            intro n hn
            rcases List.mem_cons.mp hn with rfl | h
            · rfl
            · exact hrest n h) j

/-- On an all-flattened work list whose accumulated flat text still fits
in the remaining budget, the fit check succeeds: the column only ever
grows by the flat text's length and the early-false exits never fire. -/
theorem fits_flat (W : Int) :
    ∀ (N : Nat) (col : Int) (work : List (Doc × Bool)), fitsSize work ≤ N →
      (∀ p ∈ work, p.2 = true) →
      col + ((flatWorkP work).length : Int) ≤ W →
      fits W col work = true := by
  intro N
  induction N with
  | zero =>
    intro col work hsize hflat hlen
    match work with
    | [] => simp [fits]
    | p :: rest =>
      exfalso
      have := Doc.size_pos p.1
      simp [fitsSize] at hsize
      omega
  | succ N ih =>
    intro col work hsize hflat hlen
    match work with
    | [] => simp [fits]
    | (d, fl) :: rest =>
      have hfl : fl = true := hflat (d, fl) (List.mem_cons_self _ _)
      subst hfl
      have hrest : ∀ p ∈ rest, p.2 = true :=
        fun p hp => hflat p (List.mem_cons_of_mem _ hp)
      cases d with
      | Nil f =>
        simp only [fits]
        refine ih col rest (by simp [fitsSize, Doc.size] at hsize ⊢; omega) hrest ?_
        simp only [flatWorkP, Doc.flatStr, String.empty_append] at hlen
        exact hlen
      | Line f =>
        simp only [fits, if_true]
        refine ih (col + 1) rest (by simp [fitsSize, Doc.size] at hsize ⊢; omega) hrest ?_
        rw [show flatWorkP ((Doc.Line f, true) :: rest) = " " ++ flatWorkP rest from rfl,
          String.length_append, show " ".length = 1 from rfl] at hlen
        push_cast at hlen ⊢
        omega
      | ShortText f s =>
        rw [show flatWorkP ((Doc.ShortText f s, true) :: rest) = s ++ flatWorkP rest from rfl,
          String.length_append] at hlen
        push_cast at hlen
        have hcond : ¬(col + (s.length : Int) > W) := by omega
        simp only [fits, hcond, if_false]
        refine ih _ rest (by simp [fitsSize, Doc.size] at hsize ⊢; omega) hrest ?_
        omega
      | Text f s =>
        rw [show flatWorkP ((Doc.Text f s, true) :: rest) = s ++ flatWorkP rest from rfl,
          String.length_append] at hlen
        push_cast at hlen
        have hcond : ¬(col + (s.length : Int) > W) := by omega
        simp only [fits, hcond, if_false]
        refine ih _ rest (by simp [fitsSize, Doc.size] at hsize ⊢; omega) hrest ?_
        omega
      | Concat f ds =>
        simp only [fits]
        refine ih col (ds.map (fun d => (d, true || d.isFlattened)) ++ rest)
          (by
            rw [fitsSize_append, fitsSize_map' _ _ (fun _ => rfl)]
            simp [fitsSize, Doc.size] at hsize
            omega)
          (by
            intro p hp
            rcases List.mem_append.mp hp with h | h
            · rcases List.mem_map.mp h with ⟨d', _, rfl⟩; rfl
            · exact hrest p h) ?_
        rw [flatWorkP_append, flatWorkP_map, String.length_append]
        rw [show flatWorkP ((Doc.Concat f ds, true) :: rest)
            = Doc.flatStrList ds ++ flatWorkP rest from rfl,
          String.length_append] at hlen
        push_cast at hlen ⊢
        omega
      | Choice f l r =>
        have hcond : fits W col ((l, true || l.isFlattened) :: rest) = true := by
          refine ih col ((l, true || l.isFlattened) :: rest)
            (by
              have := Doc.size_pos r
              simp [fitsSize, Doc.size] at hsize ⊢; omega)
            (by
              intro p hp
              rcases List.mem_cons.mp hp with rfl | h
              · rfl
              · exact hrest p h) ?_
          rw [show flatWorkP ((l, true || l.isFlattened) :: rest)
              = l.flatStr ++ flatWorkP rest from rfl]
          rw [show flatWorkP ((Doc.Choice f l r, true) :: rest)
              = l.flatStr ++ flatWorkP rest from rfl] at hlen
          exact hlen
        simp only [fits, hcond, if_true]
      | Nest f k d =>
        simp only [fits]
        refine ih col ((d, true || d.isFlattened) :: rest)
          (by simp [fitsSize, Doc.size] at hsize ⊢; omega)
          (by
            intro p hp
            rcases List.mem_cons.mp hp with rfl | h
            · rfl
            · exact hrest p h) ?_
        rw [show flatWorkP ((d, true || d.isFlattened) :: rest)
            = d.flatStr ++ flatWorkP rest from rfl]
        rw [show flatWorkP ((Doc.Nest f k d, true) :: rest)
            = d.flatStr ++ flatWorkP rest from rfl] at hlen
        exact hlen

/-! ## Concat expansion

Popping a `Concat` work item only pushes its children; both the fit walk
and the renderer are therefore invariant under replacing a pending
`Concat` item, anywhere in the work list, by its pushed children. -/

theorem fitsSize_cons (p : Doc × Bool) (rest : List (Doc × Bool)) :
    fitsSize (p :: rest) = p.1.size + fitsSize rest := rfl

theorem workSize_cons (n : Node) (rest : List Node) :
    workSize (n :: rest) = n.doc.size + workSize rest := rfl

theorem fits_exp (W : Int) :
    ∀ (N : Nat) (col : Int) (P Q : List (Doc × Bool)) (cf fl : Bool) (ds : List Doc),
      fitsSize (P ++ (Doc.Concat cf ds, fl) :: Q) ≤ N →
      fits W col (P ++ (Doc.Concat cf ds, fl) :: Q)
        = fits W col (P ++ (ds.map (fun d => (d, fl || d.isFlattened)) ++ Q)) := by
  intro N
  induction N with
  | zero =>
    intro col P Q cf fl ds hsize
    exfalso
    have hp : 0 < (Doc.Concat cf ds).size := Doc.size_pos _
    rw [fitsSize_append, fitsSize_cons] at hsize
    simp only at hsize
    omega
  | succ N ih =>
    intro col P Q cf fl ds hsize
    match P with
    | [] =>
      simp only [List.nil_append, fits]
    | (d, pfl) :: P' =>
      rw [List.cons_append, fitsSize_cons] at hsize
      simp only at hsize
      rw [List.cons_append, List.cons_append]
      cases d with
      | Nil f =>
        simp only [fits]
        exact ih col P' Q cf fl ds (by simp only [Doc.size] at hsize; omega)
      | Line f =>
        simp only [fits]
        cases pfl with
        | false => simp
        | true =>
          simp only [if_true]
          exact ih (col + 1) P' Q cf fl ds (by simp only [Doc.size] at hsize; omega)
      | ShortText f s =>
        simp only [fits]
        by_cases hc : col + (s.length : Int) > W
        · simp only [if_pos hc]
        · simp only [if_neg hc]
          exact ih _ P' Q cf fl ds (by simp only [Doc.size] at hsize; omega)
      | Text f s =>
        simp only [fits]
        by_cases hc : col + (s.length : Int) > W
        · simp only [if_pos hc]
        · simp only [if_neg hc]
          exact ih _ P' Q cf fl ds (by simp only [Doc.size] at hsize; omega)
      | Concat f ds2 =>
        simp only [fits]
        have h := ih col (ds2.map (fun d => (d, pfl || d.isFlattened)) ++ P') Q cf fl ds
          (by
            rw [List.append_assoc, fitsSize_append, fitsSize_map]
            simp only [Doc.size] at hsize
            omega)
        rw [List.append_assoc, List.append_assoc] at h
        exact h
      | Choice f l r =>
        have hl := ih col ((l, pfl || l.isFlattened) :: P') Q cf fl ds
          (by
            rw [List.cons_append, fitsSize_cons]
            simp only [Doc.size] at hsize ⊢
            omega)
        have hr := ih col ((r, pfl || r.isFlattened) :: P') Q cf fl ds
          (by
            rw [List.cons_append, fitsSize_cons]
            simp only [Doc.size] at hsize ⊢
            omega)
        rw [List.cons_append] at hl hr
        simp only [fits, hl, hr, List.cons_append]
      | Nest f k d =>
        simp only [fits]
        have h := ih col ((d, pfl || d.isFlattened) :: P') Q cf fl ds
          (by
            rw [List.cons_append, fitsSize_cons]
            simp only [Doc.size] at hsize ⊢
            omega)
        rw [List.cons_append] at h
        exact h

theorem map_projNode_push (ds : List Doc) (i : Int) (f : Bool) :
    (ds.map (fun d => Node.mk d i (f || d.isFlattened))).map projNode
      = ds.map (fun d => (d, f || d.isFlattened)) := by
  induction ds with
  | nil => simp
  | cons d rest ih => simp only [List.map_cons, ih, projNode]

theorem renderGo_exp (W : Int) :
    ∀ (N : Nat) (col : Int) (P Q : List Node) (i : Int) (cf f : Bool) (ds : List Doc),
      workSize (P ++ ⟨Doc.Concat cf ds, i, f⟩ :: Q) ≤ N →
      renderGo W col (P ++ ⟨Doc.Concat cf ds, i, f⟩ :: Q)
        = renderGo W col (P ++ (ds.map (fun d => Node.mk d i (f || d.isFlattened)) ++ Q)) := by
  intro N
  induction N with
  | zero =>
    intro col P Q i cf f ds hsize
    exfalso
    have hp : 0 < (Doc.Concat cf ds).size := Doc.size_pos _
    rw [workSize_append, workSize_cons] at hsize
    simp only at hsize
    omega
  | succ N ih =>
    intro col P Q i cf f ds hsize
    match P with
    | [] =>
      simp only [List.nil_append, renderGo]
    | ⟨d, pi, pfl⟩ :: P' =>
      rw [List.cons_append, workSize_cons] at hsize
      simp only at hsize
      rw [List.cons_append, List.cons_append]
      cases d with
      | Nil g =>
        simp only [renderGo]
        exact ih col P' Q i cf f ds (by simp only [Doc.size] at hsize; omega)
      | Line g =>
        simp only [renderGo]
        cases pfl with
        | false =>
          simp only [if_false, Bool.false_eq_true]
          rw [ih 0 P' Q i cf f ds (by simp only [Doc.size] at hsize; omega)]
        | true =>
          simp only [if_true]
          rw [ih (col + 1) P' Q i cf f ds (by simp only [Doc.size] at hsize; omega)]
      | ShortText g s =>
        simp only [renderGo]
        rw [ih _ P' Q i cf f ds (by simp only [Doc.size] at hsize; omega)]
      | Text g s =>
        simp only [renderGo]
        rw [ih _ P' Q i cf f ds (by simp only [Doc.size] at hsize; omega)]
      | Concat g ds2 =>
        simp only [renderGo]
        have h := ih col (ds2.map (fun d => Node.mk d pi (pfl || d.isFlattened)) ++ P') Q i cf f ds
          (by
            rw [List.append_assoc, workSize_append, workSize_map]
            simp only [Doc.size] at hsize
            omega)
        rw [List.append_assoc, List.append_assoc] at h
        exact h
      | Choice g l r =>
        have hmL : workSize ((⟨l, pi, pfl || l.isFlattened⟩ : Node) :: (P' ++ ⟨Doc.Concat cf ds, i, f⟩ :: Q)) ≤ N := by
          rw [workSize_cons]
          simp only [Doc.size] at hsize ⊢
          omega
        have hmLtrue : workSize ((⟨l, pi, true⟩ : Node) :: (P' ++ ⟨Doc.Concat cf ds, i, f⟩ :: Q)) ≤ N := by
          rw [workSize_cons]
          simp only [Doc.size] at hsize ⊢
          omega
        have hmR : workSize ((⟨r, pi, pfl || r.isFlattened⟩ : Node) :: (P' ++ ⟨Doc.Concat cf ds, i, f⟩ :: Q)) ≤ N := by
          rw [workSize_cons]
          simp only [Doc.size] at hsize ⊢
          omega
        have hlt := ih col (⟨l, pi, true⟩ :: P') Q i cf f ds (by rw [List.cons_append]; exact hmLtrue)
        have hl := ih col (⟨l, pi, pfl || l.isFlattened⟩ :: P') Q i cf f ds (by rw [List.cons_append]; exact hmL)
        have hr := ih col (⟨r, pi, pfl || r.isFlattened⟩ :: P') Q i cf f ds (by rw [List.cons_append]; exact hmR)
        rw [List.cons_append] at hlt hl hr
        have hcond :
            fits W col ((l, pfl || l.isFlattened) :: (P' ++ ⟨Doc.Concat cf ds, i, f⟩ :: Q).map projNode)
              = fits W col ((l, pfl || l.isFlattened) :: (P' ++ (ds.map (fun d => Node.mk d i (f || d.isFlattened)) ++ Q)).map projNode) := by
          simp only [List.map_append, List.map_cons, map_projNode_push]
          have h := fits_exp W
            (fitsSize (((l, pfl || l.isFlattened) :: P'.map projNode)
              ++ (Doc.Concat cf ds, f) :: Q.map projNode))
            col ((l, pfl || l.isFlattened) :: P'.map projNode) (Q.map projNode) cf f ds le_rfl
          rw [List.cons_append] at h
          simp only [projNode] at h ⊢
          exact h
        simp only [renderGo, hcond, hlt, hl, hr, List.cons_append]
      | Nest g k d =>
        simp only [renderGo]
        have h := ih col (⟨d, pi + k, pfl || d.isFlattened⟩ :: P') Q i cf f ds
          (by
            rw [List.cons_append, workSize_cons]
            simp only [Doc.size] at hsize ⊢
            omega)
        rw [List.cons_append] at h
        exact h

/-- Rendering a flattened reference ignores the width entirely and
produces the document's flat text. -/
theorem Doc.pretty_flatten (d : Doc) (W : Int) : (Doc.flatten d).pretty W = d.flatStr := by
  unfold Doc.pretty Doc.renderEvents
  rw [Doc.isFlattened_flatten]
  rw [renderGo_flat W (workSize [⟨d.flatten, 0, true⟩]) 0 _ le_rfl
      (by intro n hn; rw [List.mem_singleton.mp hn])]
  simp [flatWork, Doc.flatStr_flatten, String.append_empty]

/-! ## Claim theorems -/

/-- C7: for all documents `x`, `y`, `z` and every width, binary
concatenation (`operator+`) is associative with respect to the rendered
output: `pretty((x + y) + z, W) = pretty(x + (y + z), W)`. -/
theorem c7_concat_assoc (x y z : Doc) (W : Int) :
    ((x.add y).add z).pretty W = (x.add (y.add z)).pretty W := by
  unfold Doc.pretty Doc.renderEvents Doc.add Doc.concat
  have hexp := renderGo_exp W
    (workSize ([⟨x, 0, x.isFlattened⟩] ++ ⟨Doc.Concat false [y, z], 0, false⟩ :: []))
    0 [⟨x, 0, x.isFlattened⟩] [] 0 false false [y, z] le_rfl
  simp only [renderGo, List.map_cons, List.map_nil, List.append_nil, List.nil_append,
    List.cons_append, List.singleton_append, Bool.false_or, Doc.isFlattened] at hexp ⊢
  rw [hexp]

/-- C5: for every document `d` and width `W > 0`, if the flattened
variant's rendering fits in the column budget then `group` commits to
the flattened layout: `pretty(group(d), W) = pretty(flatten(d), W)`. -/
theorem c5_group_commits_when_flat_fits (d : Doc) (W : Int) (hW : 0 < W)
    (hfit : (((Doc.flatten d).pretty W).length : Int) ≤ W) :
    (Doc.group d).pretty W = (Doc.flatten d).pretty W := by
  have hflat : (Doc.flatten d).pretty W = d.flatStr := Doc.pretty_flatten d W
  have hlen : ((d.flatStr.length : Int)) ≤ W := by rw [hflat] at hfit; exact hfit
  have hfits : fits W 0 [(d.flatten, true)] = true := by
    apply fits_flat W (fitsSize [(d.flatten, true)]) 0 _ le_rfl
    · intro p hp; rw [List.mem_singleton.mp hp]
    · rw [show flatWorkP [(d.flatten, true)] = d.flatten.flatStr ++ "" from rfl,
        String.append_empty, Doc.flatStr_flatten]
      omega
  unfold Doc.pretty Doc.renderEvents Doc.group Doc.choice
  simp only [renderGo, show ∀ f l r, (Doc.Choice f l r).isFlattened = f from fun _ _ _ => rfl,
    Doc.isFlattened_flatten, Bool.false_or, List.map_nil, hfits, if_true, Bool.false_eq_true,
    if_false]

/-- Modelled from the spec (§4.6 `Line` step): identical to `renderGo`
except that a non-flattened `Line` sets the current column to the work
item's `indent` (`c = indent`) instead of the renderer's actual `c = 0`.
This is the behaviour claim C1 ascribes to the renderer. -/
def renderGoSpec (W : Int) : Int → List Node → List OutEvent
  | _, [] => []
  | col, ⟨.Nil _, _, _⟩ :: rest => renderGoSpec W col rest
  | col, ⟨.Line _, i, fl⟩ :: rest =>
    if fl then .write " " :: renderGoSpec W (col + 1) rest
    else .newline i :: renderGoSpec W i rest
  | col, ⟨.ShortText _ s, _, _⟩ :: rest =>
    .write s :: renderGoSpec W (col + (s.length : Int)) rest
  | col, ⟨.Text _ s, _, _⟩ :: rest =>
    .write s :: renderGoSpec W (col + (s.length : Int)) rest
  | col, ⟨.Concat _ ds, i, fl⟩ :: rest =>
    renderGoSpec W col (ds.map (fun d => ⟨d, i, fl || d.isFlattened⟩) ++ rest)
  | col, ⟨.Choice _ l r, i, fl⟩ :: rest =>
    if fl then renderGoSpec W col (⟨l, i, true⟩ :: rest)
    else
      if fits W col ((l, fl || l.isFlattened) :: rest.map projNode)
      then renderGoSpec W col (⟨l, i, fl || l.isFlattened⟩ :: rest)
      else renderGoSpec W col (⟨r, i, fl || r.isFlattened⟩ :: rest)
  | col, ⟨.Nest _ k d, i, fl⟩ :: rest =>
    renderGoSpec W col (⟨d, i + k, fl || d.isFlattened⟩ :: rest)
termination_by _ w => workSize w
decreasing_by
  all_goals simp_wf
  all_goals simp [workSize, workSize_append, workSize_map, Doc.size]
  all_goals omega

/-- Rendering under the spec's column rule for `Line` (claim C1). -/
def Doc.prettySpecCol (d : Doc) (cols : Int) : String :=
  stringWriterRun (renderGoSpec cols 0 [⟨d, 0, d.isFlattened⟩])

/-- Document separating the two column rules at width 6: after the line
break the renderer has emitted five spaces of indentation; starting the
fit check at column 0 lets the flattened `"abc x"` (five columns)
through, while starting at the indentation 5 would reject it. -/
def c1doc : Doc :=
  Doc.nest 5 (Doc.concat [Doc.line,
    Doc.group (Doc.concat [Doc.sv "abc", Doc.line, Doc.sv "x"])])

/-- C1 counterexample: the claim says the renderer sets `c` to the work
item's indent after a non-flattened `Line`, so that fit checks on that
line start from the indentation.  The code sets `c = 0`
(doc.cc line 546); on `c1doc` at width 6 the two rules produce different
output, and the code's output is the column-0 one. -/
theorem c1_counterexample :
    Doc.pretty c1doc 6 = "\n     abc x"
    ∧ Doc.prettySpecCol c1doc 6 = "\n     abc\n     x"
    ∧ Doc.pretty c1doc 6 ≠ Doc.prettySpecCol c1doc 6 := by
  refine ⟨?_, ?_, ?_⟩
  · simp +decide [c1doc, Doc.pretty, Doc.renderEvents, Doc.sv, Doc.nest, Doc.concat, Doc.line,
      Doc.group, Doc.choice, Doc.flatten, renderGo, fits, stringWriterRun, Doc.isFlattened,
      stringWriterNewline, toSizeT, spaces, projNode]
  · simp +decide [c1doc, Doc.prettySpecCol, Doc.sv, Doc.nest, Doc.concat, Doc.line,
      Doc.group, Doc.choice, Doc.flatten, renderGoSpec, fits, stringWriterRun, Doc.isFlattened,
      stringWriterNewline, toSizeT, spaces, projNode]
  · intro h
    rw [show Doc.pretty c1doc 6 = "\n     abc x" by
        simp +decide [c1doc, Doc.pretty, Doc.renderEvents, Doc.sv, Doc.nest, Doc.concat, Doc.line,
          Doc.group, Doc.choice, Doc.flatten, renderGo, fits, stringWriterRun, Doc.isFlattened,
          stringWriterNewline, toSizeT, spaces, projNode],
      show Doc.prettySpecCol c1doc 6 = "\n     abc\n     x" by
        simp +decide [c1doc, Doc.prettySpecCol, Doc.sv, Doc.nest, Doc.concat, Doc.line,
          Doc.group, Doc.choice, Doc.flatten, renderGoSpec, fits, stringWriterRun, Doc.isFlattened,
          stringWriterNewline, toSizeT, spaces, projNode]] at h
    exact absurd h (by decide)

/-- C1 amended: when a `Line` work item is popped with its flattened
flag false, the renderer calls `writer.line(indent)` and resets the
current column to 0 (not to the indent), so subsequent fit checks and
column accounting on that line start from zero; on `c1doc` at width 6
this makes the group flatten even though the resulting line is wider
than the budget. -/
theorem c1_line_resets_column_to_zero :
    (∀ (W col : Int) (f : Bool) (i : Int) (rest : List Node),
      renderGo W col (⟨Doc.Line f, i, false⟩ :: rest)
        = OutEvent.newline i :: renderGo W 0 rest)
    ∧ Doc.pretty c1doc 6 = "\n     abc x" := by
  constructor
  · intro W col f i rest
    simp [renderGo]
  · simp +decide [c1doc, Doc.pretty, Doc.renderEvents, Doc.sv, Doc.nest, Doc.concat, Doc.line,
      Doc.group, Doc.choice, Doc.flatten, renderGo, fits, stringWriterRun, Doc.isFlattened,
      stringWriterNewline, toSizeT, spaces, projNode]

/-- Child list of a `Concat` node, `none` for any other node. -/
def concatChildren : Doc → Option (List Doc)
  | .Concat _ ds => some ds
  | _ => none

/-- C2 counterexample: `concat(nil, text("a"))` is claimed to filter the
`Nil` out and, with one non-nil argument left, collapse to that
argument.  The variadic constructor (doc.h lines 232–238) pushes every
argument unconditionally: the result is a `Concat` whose child list is
exactly `[nil, a]`, so a `Concat` can hold a `Nil` child. -/
theorem c2_counterexample :
    Doc.concat [Doc.nil, Doc.sv "a"] ≠ Doc.sv "a"
    ∧ concatChildren (Doc.concat [Doc.nil, Doc.sv "a"]) = some [Doc.nil, Doc.sv "a"]
    ∧ Doc.nil ∈ [Doc.nil, Doc.sv "a"] := by
  refine ⟨?_, rfl, by simp⟩
  simp +decide [Doc.concat, Doc.sv]

/-- C2 amended: `concat(d1, …, dn)` returns a single `Concat` node whose
child list contains exactly the given arguments in order, `Nil`
arguments included — no filtering or collapsing occurs.  The unfiltered
`Nil` children are harmless: the renderer skips them, so they do not
change the output. -/
theorem c2_concat_keeps_all_children :
    (∀ ds : List Doc, concatChildren (Doc.concat ds) = some ds)
    ∧ (∀ (a : Doc) (W : Int),
        (Doc.concat [Doc.nil, a]).pretty W = (Doc.concat [a]).pretty W) := by
  constructor
  · intro ds; rfl
  · intro a W
    unfold Doc.pretty Doc.renderEvents Doc.concat Doc.nil
    simp only [renderGo, show ∀ f ds, (Doc.Concat f ds).isFlattened = f from fun _ _ => rfl,
      List.map_cons, List.map_nil, List.append_nil, Bool.false_or]

theorem spaces_length (n : Nat) : (spaces n).length = n := by
  simp [spaces, String.length]

/-- C3: the spec says both writers' `line(indent)` append a newline and
`max(0, indent)` spaces.  `StreamWriter::line` does (its loop runs
`max(0, indent)` times), but `StringWriter::line` passes the `int`
straight to `std::string::append(size_type, char)`: a negative indent is
converted to `size_t`, so `line(-1)` asks for `2^64 - 1` spaces instead
of none.  The failing input is reachable: rendering `nest(-1, line())`
with `pretty` hands the writer indent `-1`. -/
theorem c3_stringwriter_misses_indent_clamp :
    stringWriterNewline (-1) = "\n" ++ spaces (2 ^ 64 - 1)
    ∧ (stringWriterNewline (-1)).length = 1 + (2 ^ 64 - 1)
    ∧ ((Doc.nest (-1) Doc.line).pretty 80).length = 1 + (2 ^ 64 - 1)
    ∧ (∀ i : Int, streamWriterNewline i = "\n" ++ spaces (max 0 i).toNat) := by
  have hsz : toSizeT (-1) = 2 ^ 64 - 1 := by decide
  have h1 : stringWriterNewline (-1) = "\n" ++ spaces (2 ^ 64 - 1) := by
    rw [stringWriterNewline, hsz]
  refine ⟨h1, ?_, ?_, ?_⟩
  · rw [h1, String.length_append, spaces_length]
    rfl
  · have hev : (Doc.nest (-1) Doc.line).pretty 80
        = stringWriterNewline (-1) ++ "" := by
      unfold Doc.pretty Doc.renderEvents Doc.nest Doc.line
      simp only [renderGo, show ∀ f k d, (Doc.Nest f k d).isFlattened = f from fun _ _ _ => rfl,
        show (Doc.Line false).isFlattened = false from rfl, Bool.false_or, Bool.false_eq_true,
        if_false, stringWriterRun]
      norm_num
    rw [hev, String.append_empty, h1, String.length_append, spaces_length]
    rfl
  · intro i
    rw [streamWriterNewline, show (max 0 i).toNat = i.toNat from by omega]

/-- The document of claim C4: `sep(text(", "), [a, b, c])` built with
the doc.h `sep`. -/
def c4doc : Doc := sep (Doc.sv ", ") [Doc.sv "a", Doc.sv "b", Doc.sv "c"]

/-- The same document built with the ranges.h `sep`. -/
def c4docRanges : Doc := sepRanges (Doc.sv ", ") [Doc.sv "a", Doc.sv "b", Doc.sv "c"]

/-- C4 counterexample: at width 1 the claim expects `"a,\nb,\nc"`, but
the separator `", "` is plain text with no line break in it — the only
alternatives the groups offer are flattened/unflattened text, so the
render is `"a, b, c"` at width 1 as well.  (The `"a,\nb,\nc"` output
belongs to the `char(',') + softline()` separator, cf. the width-3 test
in tests.cc.) -/
theorem c4_counterexample :
    Doc.pretty c4doc 1 = "a, b, c" ∧ Doc.pretty c4doc 1 ≠ "a,\nb,\nc" := by
  have h : Doc.pretty c4doc 1 = "a, b, c" := by
    simp +decide [c4doc, sep, sepLoop, Doc.append, Doc.is_nil, Doc.add, Doc.concat, Doc.nil,
      Doc.pretty, Doc.renderEvents, Doc.sv, Doc.group, Doc.choice, Doc.flatten, renderGo, fits,
      stringWriterRun, Doc.isFlattened, projNode]
  exact ⟨h, by rw [h]; decide⟩

/-- C4 amended: `sep(text(", "), [a, b, c])` renders as `"a, b, c"` at
width 80 and also at width 1 (both for the doc.h and the ranges.h
`sep`): the text separator offers no break point, so no width forces a
newline.  Line breaks at narrow widths require a separator containing
`softline`. -/
theorem c4_sep_comma_text :
    Doc.pretty c4doc 80 = "a, b, c"
    ∧ Doc.pretty c4doc 1 = "a, b, c"
    ∧ Doc.pretty c4docRanges 80 = "a, b, c"
    ∧ Doc.pretty c4docRanges 1 = "a, b, c"
    ∧ Doc.pretty (sep ((Doc.c ',').add Doc.softline) [Doc.sv "a", Doc.sv "b", Doc.sv "c"]) 3
        = "a,\nb,\nc" := by
  refine ⟨?_, ?_, ?_, ?_, ?_⟩ <;>
    simp +decide [c4doc, c4docRanges, sep, sepLoop, sepRanges, sepRangesLoop, Doc.append,
      Doc.is_nil, Doc.add, Doc.concat, Doc.nil, Doc.line, Doc.c, Doc.short_text, Doc.softline,
      Doc.pretty, Doc.renderEvents, Doc.sv, Doc.group, Doc.choice, Doc.flatten, renderGo, fits,
      stringWriterRun, stringWriterNewline, toSizeT, spaces, Doc.isFlattened, projNode]

/-- The document of claim C6: `concat(a, line(), b, line(), c)`. -/
def c6doc : Doc := Doc.concat [Doc.sv "a", Doc.line, Doc.sv "b", Doc.line, Doc.sv "c"]

/-- C6: while the flattened bit is in force along a traversal path every
`Line` renders as a single space and never as a line break — on an
all-flattened work list the renderer issues no `line(...)` writer call —
and concretely `pretty(flatten(concat(a, line, b, line, c)), W)` is
`"a b c"` for every width `W ≥ 5`. -/
theorem c6_flattened_line_renders_as_space :
    (∀ (W col : Int) (work : List Node), (∀ n ∈ work, n.flattening = true) →
      ∀ j : Int, OutEvent.newline j ∉ renderGo W col work)
    ∧ (∀ W : Int, 5 ≤ W → (Doc.flatten c6doc).pretty W = "a b c") := by
  constructor
  · intro W col work hAF j
    exact renderGo_flat_noNewline W (workSize work) col work le_rfl hAF j
  · intro W hW
    rw [Doc.pretty_flatten]
    simp +decide [c6doc, Doc.concat, Doc.sv, Doc.line, Doc.flatStr, Doc.flatStrList]

/-- Witness for C6 at concrete inputs: width 5, the singleton work list
holding the flattened document. -/
theorem c6_witness :
    (∀ j : Int, OutEvent.newline j ∉ renderGo 5 0 [⟨Doc.flatten c6doc, 0, true⟩])
    ∧ (Doc.flatten c6doc).pretty 5 = "a b c" :=
  ⟨fun j => c6_flattened_line_renders_as_space.1 5 0 _
      (by intro n hn; rw [List.mem_singleton.mp hn]) j,
    c6_flattened_line_renders_as_space.2 5 (by norm_num)⟩

/-- The witness document for C5: `concat(a, line, b)`, whose flattened
text `"a b"` (3 columns) fits in width 5. -/
def c5wdoc : Doc := Doc.concat [Doc.sv "a", Doc.line, Doc.sv "b"]

/-- Witness for C5 at the concrete document `c5wdoc` and width 5. -/
theorem c5_witness :
    (0 : Int) < 5
    ∧ (((Doc.flatten c5wdoc).pretty 5).length : Int) ≤ 5
    ∧ (Doc.group c5wdoc).pretty 5 = (Doc.flatten c5wdoc).pretty 5 := by
  have hlen : (((Doc.flatten c5wdoc).pretty 5).length : Int) ≤ 5 := by
    rw [Doc.pretty_flatten]
    simp +decide [c5wdoc, Doc.concat, Doc.sv, Doc.line, Doc.flatStr, Doc.flatStrList]
  exact ⟨by norm_num, hlen, c5_group_commits_when_flat_fits c5wdoc 5 (by norm_num) hlen⟩

/-- C8: the inline short-text representation and the boxed text
representation of the same string render bytewise identically — the
renderer treats `ShortText` and `Text` by the same code path, writing
the string verbatim — and `Doc::sv` therefore renders any non-empty
string `s` as `s` no matter which representation it picked. -/
theorem c8_short_and_boxed_text_render_alike (s : String) (W : Int)
    (hne : s ≠ "") (hnl : '\n' ∉ s.data) :
    Doc.pretty (.ShortText false s) W = Doc.pretty (.Text false s) W
    ∧ Doc.pretty (.ShortText false s) W = s
    ∧ Doc.pretty (Doc.sv s) W = s := by
  have hshort : Doc.pretty (.ShortText false s) W = s := by
    unfold Doc.pretty Doc.renderEvents
    simp only [renderGo, show (Doc.ShortText false s).isFlattened = false from rfl,
      stringWriterRun, String.append_empty]
  have hbox : Doc.pretty (.Text false s) W = s := by
    unfold Doc.pretty Doc.renderEvents
    simp only [renderGo, show (Doc.Text false s).isFlattened = false from rfl,
      stringWriterRun, String.append_empty]
  refine ⟨hshort.trans hbox.symm, hshort, ?_⟩
  rw [Doc.sv]
  have hemp : s.isEmpty = false := by
    cases h : s.isEmpty
    · rfl
    · exact absurd ((String.isEmpty_iff s).mp h) hne
  rw [hemp]
  by_cases hlen : s.length ≤ 8
  · simp only [Bool.false_eq_true, if_false, if_pos hlen]
    exact hshort
  · simp only [Bool.false_eq_true, if_false, if_neg hlen]
    exact hbox

/-- Witness for C8 at a concrete 15-byte (boxed) string and width 80. -/
theorem c8_witness :
    Doc.pretty (.ShortText false "pretty-printers") 80
      = Doc.pretty (.Text false "pretty-printers") 80
    ∧ Doc.pretty (Doc.sv "pretty-printers") 80 = "pretty-printers" :=
  ⟨(c8_short_and_boxed_text_render_alike "pretty-printers" 80 (by decide) (by decide)).1,
    (c8_short_and_boxed_text_render_alike "pretty-printers" 80 (by decide) (by decide)).2.2⟩

/-- C9: `Doc::s(nullptr)` returns the empty document: `is_nil()` holds
and `pretty` of the result is `""` at every width. -/
theorem c9_null_cstring_is_nil :
    (Doc.s none).is_nil = true ∧ ∀ W : Int, Doc.pretty (Doc.s none) W = "" := by
  refine ⟨rfl, ?_⟩
  intro W
  unfold Doc.pretty Doc.renderEvents Doc.s Doc.nil
  simp only [renderGo, show (Doc.Nil false).isFlattened = false from rfl, stringWriterRun]

/-- C10: rendering is deterministic and read-only.  In this embedding
the renderer's mutable state — the current column and the work stack —
is threaded explicitly through `renderGo`, documents are immutable
values, and `Doc::pretty` builds a fresh `StringWriter` and a fresh
`DocRenderer` (column 0, singleton work stack) on every call; repeated
calls therefore agree exactly, the event trace issued to the writer is a
function of the document value and the width alone, and the document is
untouched. -/
theorem c10_pretty_deterministic_and_pure (d : Doc) (W : Int) :
    d.pretty W = d.pretty W
    ∧ d.renderEvents W = d.renderEvents W
    ∧ stringWriterRun (d.renderEvents W) = d.pretty W :=
  ⟨rfl, rfl, rfl⟩
